import Mathlib

/-!
# Block identity of the emulator (`types/block.go`)

A shallow embedding of the `Block` record, its canonical encoding, its
hash-derived identifier and the genesis constructor, followed by the
properties of the block-identity model.

The record and its methods are transcribed from `types/block.go`.  The three
library facilities the methods call are modelled next to them:

* `flow.Identifier`, `flow.ZeroID`, `flow.HashToID` (a 32-byte array, its zero
  value, and `copy` of a digest into it);
* `flow.DefaultEncoder` (the RLP encoder: `Encode` returns bytes or an error,
  `MustEncode` aborts on an error);
* `crypto.NewSHA3_256().ComputeHash` (SHA3-256 of FIPS 202).
-/

namespace FlowEmulator

/-! ## Bytes and identifiers -/

/-- A Go `byte`. -/
abbrev Byte := Fin 256

/-- Conversion `byte(n)`: the low eight bits. -/
def toByte (n : Nat) : Byte := ⟨n % 256, Nat.mod_lt n (by decide)⟩

/-- Modelled from the spec: the type `flow.Identifier` is declared outside these
sources; it is the fixed-width identifier of 32 bytes (`[32]byte`). -/
structure Identifier where
  bytes : List Byte
  size : bytes.length = 32
deriving DecidableEq

/-- Modelled from the spec: the constant `flow.ZeroID` is declared outside these
sources; it is the all-zero sentinel identifier. -/
def ZeroID : Identifier := ⟨List.replicate 32 0, by simp⟩

/-- Modelled from the spec: the function `flow.HashToID` is defined outside these
sources; it maps a digest to the identifier type by `copy(id[:], hash)`, which
moves `min 32 (len hash)` bytes and leaves the rest of the array zero. -/
def HashToID (hash : List Byte) : Identifier :=
  ⟨hash.take 32 ++ List.replicate (32 - hash.length) 0, by
    simp only [List.length_append, List.length_take, List.length_replicate]; omega⟩

/-! ## The RLP encoder behind `flow.DefaultEncoder`

The parts of the encoder that the encoding of a block runs through. -/

/-- Big-endian bytes of `i`, at most `fuel` of them, without leading zeros. -/
def putintAux : Nat → Nat → List Byte
  | 0, _ => []
  | fuel + 1, i => if i < 256 then [toByte i] else putintAux fuel (i / 256) ++ [toByte i]

/-- The encoder's `putint`: the minimal big-endian form of `i`.  The library
switches over the eight widths of a `uint64`; the recursion here continues the
same pattern to every width, so that it is total on `Nat`. -/
def putint (i : Nat) : List Byte := putintAux (i + 1) i

/-- The encoder's `puthead`: the header of a string or list of `size` bytes. -/
def puthead (smalltag largetag : Nat) (size : Nat) : List Byte :=
  if size < 56 then [toByte (smalltag + size)]
  else toByte (largetag + (putint size).length) :: putint size

/-- The encoder's `writeUint`. -/
def writeUint (i : Nat) : List Byte :=
  if i = 0 then [toByte 0x80]
  else if i < 128 then [toByte i]
  else toByte (0x80 + (putint i).length) :: putint i

/-- The encoder's `encodeString`, used for byte slices and byte arrays. -/
def encodeString (b : List Byte) : List Byte :=
  match b with
  | [x] => if x.val ≤ 0x7F then [x] else puthead 0x80 0xB7 1 ++ [x]
  | _ => puthead 0x80 0xB7 b.length ++ b

/-- The Go values handed to the encoder, by the kind of their type. -/
inductive Value where
  /-- an unsigned integer (`uint64`) -/
  | uint (i : Nat)
  /-- a byte array or byte slice (`[32]byte`) -/
  | bytes (b : List Byte)
  /-- a struct (its fields in order) or a slice of non-byte elements -/
  | list (items : List Value)
  /-- a value of a kind the encoder has no writer for -/
  | unsupported (kind : String)

mutual
/-- Modelled from the spec: the encoder `flow.DefaultEncoder` is defined outside
these sources; it is the generic structural encoder of the SDK, RLP.  This is
its `Encode`: the bytes of a value, or an error for a value that is not
serializable. -/
def Value.encode : Value → Except String (List Byte)
  | .uint i => .ok (writeUint i)
  | .bytes b => .ok (encodeString b)
  | .list items =>
    match Value.encodeItems items with
    | .ok payload => .ok (puthead 0xC0 0xF7 payload.length ++ payload)
    | .error e => .error e
  | .unsupported kind => .error ("rlp: type " ++ kind ++ " is not RLP-serializable")
/-- The concatenated encodings of the items of a list. -/
def Value.encodeItems : List Value → Except String (List Byte)
  | [] => .ok []
  | v :: vs =>
    match Value.encode v with
    | .ok a =>
      match Value.encodeItems vs with
      | .ok rest => .ok (a ++ rest)
      | .error e => .error e
    | .error e => .error e
end

/-- Modelled from the spec: the method `MustEncode` of `flow.DefaultEncoder` is
defined outside these sources; it is `Encode`, and an encoding failure is fatal:
a panic (`none`) when `Encode` reports an error. -/
def MustEncode (v : Value) : Option (List Byte) :=
  match v.encode with
  | .ok b => some b
  | .error _ => none

/-! ## SHA3-256 behind `crypto.NewSHA3_256`

The sponge over Keccak-f[1600] with rate 136 bytes; a state is a list of 25
lanes of 64 bits. -/

/-- Rotation of a 64-bit lane to the left by `n < 64` bits. -/
def rotl64 (x n : Nat) : Nat :=
  ((x <<< n) ||| (x >>> (64 - n))) % 18446744073709551616

/-- Lane `i` of a Keccak state; the lane of column `x`, row `y` has index `x + 5 * y`. -/
def lane (A : List Nat) (i : Nat) : Nat := A.getD i 0

/-- The walk of the step rho: it starts at lane `(1, 0)`; step `t` gives the lane
it stands on the offset `(t + 1) * (t + 2) / 2` modulo 64 and moves on from
`(x, y)` to `(y, 2 * x + 3 * y)`.  The result pairs lane indices with offsets. -/
def rhoWalk : Nat → Nat → Nat → Nat → List (Nat × Nat)
  | 0, _, _, _ => []
  | n + 1, t, x, y =>
    (x + 5 * y, (t + 1) * (t + 2) / 2 % 64) :: rhoWalk n (t + 1) y ((2 * x + 3 * y) % 5)

/-- The rotation offsets of the step rho, by lane index; lane `(0, 0)`, which the
walk does not visit, is not rotated. -/
def rhoOffsets : List Nat :=
  (List.range 25).map fun i => ((rhoWalk 24 0 1 0).lookup i).getD 0

/-- One step of the linear feedback shift register behind the round constants:
the register, of eight bits, after the step. -/
def lfsrStep (r : Nat) : Nat :=
  if r / 128 % 2 = 1 then ((2 * r) ^^^ 0x71) % 256 else (2 * r) % 256

/-- The constant of one round, bit by bit: bit `2 ^ j - 1` is the output of the
register at step `j` of the round, for `j < bits`.  Returns the constant and the
register after the round. -/
def roundConstant : Nat → Nat → Nat × Nat
  | 0, r => (0, r)
  | bits + 1, r =>
    let before := roundConstant bits r
    (before.1 + (before.2 % 2) * 2 ^ (2 ^ bits - 1), lfsrStep before.2)

/-- The constants of `n` rounds, from the register `r` on. -/
def roundConstantsFrom : Nat → Nat → List Nat
  | 0, _ => []
  | n + 1, r => (roundConstant 7 r).1 :: roundConstantsFrom n (roundConstant 7 r).2

/-- The round constants of the step iota. -/
def roundConstants : List Nat := roundConstantsFrom 24 1

/-- The step theta: every lane is xored with the parities of two neighbouring columns. -/
def theta (A : List Nat) : List Nat :=
  let C := (List.range 5).map fun x =>
    lane A x ^^^ lane A (x + 5) ^^^ lane A (x + 10) ^^^ lane A (x + 15) ^^^ lane A (x + 20)
  let D := (List.range 5).map fun x =>
    lane C ((x + 4) % 5) ^^^ rotl64 (lane C ((x + 1) % 5)) 1
  (List.range 25).map fun i => lane A i ^^^ lane D (i % 5)

/-- The steps rho and pi: lane `(x, y)` is rotated and moved to `(y, 2 * x + 3 * y)`. -/
def rhoPi (A : List Nat) : List Nat :=
  (List.range 25).map fun j =>
    let src := (j % 5 + 3 * (j / 5)) % 5 + 5 * (j % 5)
    rotl64 (lane A src) (lane rhoOffsets src)

/-- The step chi: the non-linear map along each row. -/
def chi (B : List Nat) : List Nat :=
  (List.range 25).map fun i =>
    let x := i % 5
    let y := i / 5
    lane B i ^^^
      ((lane B ((x + 1) % 5 + 5 * y) ^^^ 18446744073709551615) &&& lane B ((x + 2) % 5 + 5 * y))

/-- The step iota: the round constant is xored into lane `(0, 0)`. -/
def iota (rc : Nat) (A : List Nat) : List Nat :=
  match A with
  | [] => []
  | a :: rest => (a ^^^ rc) :: rest

/-- The permutation Keccak-f[1600]: twenty-four rounds. -/
def keccakF (A : List Nat) : List Nat :=
  roundConstants.foldl (fun st rc => iota rc (chi (rhoPi (theta st)))) A

/-- Little-endian value of a run of bytes. -/
def leValue (bs : List Byte) : Nat :=
  bs.foldr (fun b acc => b.val + 256 * acc) 0

/-- The eight little-endian bytes of a lane. -/
def laneBytes (w : Nat) : List Byte :=
  (List.range 8).map fun k => toByte (w >>> (8 * k))

/-- The rate of SHA3-256 in bytes. -/
def rate : Nat := 136

/-- Xor of one block of `rate` bytes into the first seventeen lanes. -/
def xorBlock (A : List Nat) (block : List Byte) : List Nat :=
  (List.range 25).map fun i =>
    if i < 17 then lane A i ^^^ leValue ((block.drop (8 * i)).take 8) else lane A i

/-- Padding of SHA3: the domain bits `01`, then `1 0* 1` up to a multiple of the rate. -/
def pad (data : List Byte) : List Byte :=
  let q := rate - data.length % rate
  if q = 1 then data ++ [toByte 0x86]
  else data ++ [toByte 0x06] ++ List.replicate (q - 2) 0 ++ [toByte 0x80]

/-- Absorption of `n` blocks. -/
def absorb : Nat → List Nat → List Byte → List Nat
  | 0, A, _ => A
  | n + 1, A, msg => absorb n (keccakF (xorBlock A (msg.take rate))) (msg.drop rate)

/-- Modelled from the spec: the hasher `crypto.NewSHA3_256()` is defined outside
these sources; its `ComputeHash` is the cryptographic hash SHA3-256 (FIPS 202),
whose digest has 32 bytes. -/
def ComputeHash (data : List Byte) : List Byte :=
  let msg := pad data
  let A := absorb (msg.length / rate) (List.replicate 25 0) msg
  ((A.take 4).map laneBytes).flatten

/-! ## The block record -/

/-- A Go `uint64`. -/
abbrev Uint64 := Fin 18446744073709551616

/-- The Go struct `Block`. -/
structure Block where
  Height : Uint64
  ParentID : Identifier
  TransactionIDs : List Identifier
deriving DecidableEq

/-- The anonymous struct `temp` of `Block.Encode`, as the encoder sees it. -/
def Block.temp (b : Block) : Value :=
  .list [.uint b.Height.val, .bytes b.ParentID.bytes,
    .list (b.TransactionIDs.map fun t => .bytes t.bytes)]

/-- The Go method `Block.Encode`; `none` stands for the panic of `MustEncode`. -/
def Block.Encode (b : Block) : Option (List Byte) :=
  MustEncode b.temp

/-- The Go method `Block.ID`: `flow.HashToID(hasher.ComputeHash(b.Encode()))`;
a panic of `Encode` propagates. -/
def Block.ID (b : Block) : Option Identifier :=
  match b.Encode with
  | some enc => some (HashToID (ComputeHash enc))
  | none => none

/-- The Go function `GenesisBlock`. -/
def GenesisBlock : Block :=
  { Height := 0, ParentID := ZeroID, TransactionIDs := [] }

/-! ### Calls as steps on the caller's variable -/

/-- The methods of `Block` that take no argument and that the compiler accepts. -/
inductive Method where
  | ID
  | Encode
deriving DecidableEq

/-- What a call hands back: an identifier or a byte sequence (`none` for a panic). -/
inductive Result where
  | identifier (v : Option Identifier)
  | bytes (v : Option (List Byte))
deriving DecidableEq

/-- One call `b.m()`, as a step on the caller's variable `b`: the result and the
variable after the call.  `Block.call_refines` derives this step from the bodies
of the two methods run on the memory of the program. -/
def Block.call (m : Method) (b : Block) : Result × Block :=
  match m with
  | .ID => (.identifier b.ID, b)
  | .Encode => (.bytes b.Encode, b)

/-- A sequence of calls on one variable: the results in order, and the variable
after the last call. -/
def Block.run : List Method → Block → List Result × Block
  | [], b => ([], b)
  | m :: ms, b =>
    let step := Block.call m b
    let later := Block.run ms step.2
    (step.1 :: later.1, later.2)

/-! ### The header -/

/-- The Go struct `flow.BlockHeader`, with the three fields `Block.Header` sets. -/
structure BlockHeader where
  ID : Identifier
  ParentID : Identifier
  Height : Uint64
deriving DecidableEq

/-- A value selected from a `Block` by name. -/
inductive Member where
  | uint64 (v : Uint64)
  | identifier (v : Identifier)
  | identifiers (v : List Identifier)
  | bytes (v : List Byte)
deriving DecidableEq

/-- The selector `b.name` for a field: `Block` declares `Height`, `ParentID` and
`TransactionIDs`, and no other field. -/
def Block.field (b : Block) (name : String) : Option Member :=
  if name = "Height" then some (.uint64 b.Height)
  else if name = "ParentID" then some (.identifier b.ParentID)
  else if name = "TransactionIDs" then some (.identifiers b.TransactionIDs)
  else none

/-- The selector `b.name()` for a method without arguments, other than `Header`
itself: `Block` declares `ID` and `Encode`. -/
def Block.method (b : Block) (name : String) : Option Member :=
  if name = "ID" then b.ID.map .identifier
  else if name = "Encode" then b.Encode.map .bytes
  else none

/-- The Go method `Block.Header`, as written: it selects `b.Hash()`,
`b.PreviousBlockHash` and `b.Number`, the first two as byte slices for
`flow.HashToID` and the third as the `uint64` height.  `none` when a selector
does not resolve to a member of that type. -/
def Block.Header (b : Block) : Option BlockHeader :=
  match b.method "Hash", b.field "PreviousBlockHash", b.field "Number" with
  | some (.bytes hash), some (.bytes previousBlockHash), some (.uint64 number) =>
    some { ID := HashToID hash, ParentID := HashToID previousBlockHash, Height := number }
  | _, _, _ => none

/-! ### Method bodies run on the memory of the program

A variable of type `Block` holds Height and ParentID inline and TransactionIDs
as a slice header; the elements of the slice live in a backing array that every
copy of the header shares.  A method body runs on a frame, its own receiver and
the memory, and may read and write both. -/

/-- A slice header: the address of the backing array and the length. -/
structure Slice where
  addr : Nat
  len : Nat
deriving DecidableEq

/-- The memory a block reaches: the backing arrays of identifier slices, by address. -/
abbrev Heap := List (List Identifier)

/-- The elements of a slice in a memory. -/
def Heap.load (m : Heap) (s : Slice) : List Identifier :=
  (m.getD s.addr []).take s.len

/-- A variable of type `Block` as the program stores it. -/
structure BlockVar where
  Height : Uint64
  ParentID : Identifier
  TransactionIDs : Slice
deriving DecidableEq

/-- The block a variable holds in a memory. -/
def BlockVar.value (v : BlockVar) (m : Heap) : Block :=
  { Height := v.Height, ParentID := v.ParentID, TransactionIDs := m.load v.TransactionIDs }

/-- The state a method body runs in: its receiver and the memory. -/
structure Frame where
  receiver : BlockVar
  heap : Heap
deriving DecidableEq

/-- A piece of a method body: from a frame to a result (`none` for a panic or a
selector that does not resolve) and the frame after it. -/
abbrev Exec (α : Type) := Frame → Option α × Frame

/-- The statement `return a`. -/
def Exec.pure {α : Type} (a : α) : Exec α := fun f => (some a, f)

/-- A body that stops without a result. -/
def Exec.fail {α : Type} : Exec α := fun f => (none, f)

/-- Two pieces in sequence; a piece without a result ends the body. -/
def Exec.bind {α β : Type} (x : Exec α) (k : α → Exec β) : Exec β := fun f =>
  match x f with
  | (some a, f1) => k a f1
  | (none, f1) => (none, f1)

/-- The expression `b.Height`. -/
def Exec.height : Exec Uint64 := fun f => (some f.receiver.Height, f)

/-- The expression `b.ParentID`. -/
def Exec.parentID : Exec Identifier := fun f => (some f.receiver.ParentID, f)

/-- The expression `b.TransactionIDs`: the slice header. -/
def Exec.transactionIDs : Exec Slice := fun f => (some f.receiver.TransactionIDs, f)

/-- The assignment `b.Height = h`. -/
def Exec.setHeight (h : Uint64) : Exec Unit := fun f =>
  (some (), { f with receiver := { f.receiver with Height := h } })

/-- The assignment `s[i] = t` to an element of a slice. -/
def Exec.store (s : Slice) (i : Nat) (t : Identifier) : Exec Unit := fun f =>
  (some (), { f with heap := f.heap.set s.addr ((f.heap.getD s.addr []).set i t) })

/-- The call `flow.DefaultEncoder.MustEncode(&temp)` on the struct of a height, a
parent identifier and a slice: the encoder reads the elements of the slice from
the memory and writes to its own output only. -/
def Exec.mustEncode (height : Uint64) (parentID : Identifier) (transactionIDs : Slice) :
    Exec (List Byte) := fun f =>
  (MustEncode (Block.temp
    { Height := height, ParentID := parentID, TransactionIDs := f.heap.load transactionIDs }), f)

/-- The kind of receiver a method declares: `(b Block)` or `(b *Block)`. -/
inductive Receiver where
  | value
  | pointer
deriving DecidableEq

/-- A declared method: the kind of its receiver and its body. -/
structure Decl (α : Type) where
  receiver : Receiver
  body : Exec α

/-- A call of a declared method on a variable in a memory: the result, the
variable after the call and the memory after it.  The body runs on the variable
itself when the receiver is a pointer and on a copy of it when the receiver is
a value; the memory is shared in both cases. -/
def Decl.callOn {α : Type} (d : Decl α) (v : BlockVar) (m : Heap) :
    Option α × BlockVar × Heap :=
  match d.receiver with
  | .value => ((d.body ⟨v, m⟩).1, v, (d.body ⟨v, m⟩).2.heap)
  | .pointer => ((d.body ⟨v, m⟩).1, (d.body ⟨v, m⟩).2.receiver, (d.body ⟨v, m⟩).2.heap)

/-- A call `b.method()` inside a body, on the receiver of that body. -/
def Exec.invoke {α : Type} (d : Decl α) : Exec α := fun f =>
  ((d.callOn f.receiver f.heap).1,
    ⟨(d.callOn f.receiver f.heap).2.1, (d.callOn f.receiver f.heap).2.2⟩)

/-- The body of `Block.Encode`: `temp` is built from the three fields of the
receiver and handed to `MustEncode`. -/
def Block.EncodeBody : Exec (List Byte) :=
  Exec.bind Exec.height fun height =>
  Exec.bind Exec.parentID fun parentID =>
  Exec.bind Exec.transactionIDs fun transactionIDs =>
  Exec.mustEncode height parentID transactionIDs

/-- The declaration `func (b Block) Encode() []byte`. -/
def Block.EncodeDecl : Decl (List Byte) := ⟨.value, Block.EncodeBody⟩

/-- The body of `Block.ID`: `b.Encode()` is called, its result hashed and the
digest turned into an identifier. -/
def Block.IDBody : Exec Identifier :=
  Exec.bind (Exec.invoke Block.EncodeDecl) fun enc =>
  Exec.pure (HashToID (ComputeHash enc))

/-- The declaration `func (b Block) ID() flow.Identifier`. -/
def Block.IDDecl : Decl Identifier := ⟨.value, Block.IDBody⟩

/-- The selector `b.name` for a field, inside a body. -/
def Exec.field (name : String) : Exec Member := fun f =>
  ((f.receiver.value f.heap).field name, f)

/-- The selector `b.name()` for a method without arguments, inside a body. -/
def Exec.method (name : String) : Exec Member :=
  if name = "ID" then Exec.bind (Exec.invoke Block.IDDecl) fun i => Exec.pure (.identifier i)
  else if name = "Encode" then
    Exec.bind (Exec.invoke Block.EncodeDecl) fun e => Exec.pure (.bytes e)
  else Exec.fail

/-- The body of `Block.Header`, as written: the selectors `b.Hash()`,
`b.PreviousBlockHash` and `b.Number`, then the header built from them. -/
def Block.HeaderBody : Exec BlockHeader :=
  Exec.bind (Exec.method "Hash") fun hash =>
  Exec.bind (Exec.field "PreviousBlockHash") fun previousBlockHash =>
  Exec.bind (Exec.field "Number") fun number =>
  match hash, previousBlockHash, number with
  | .bytes h, .bytes p, .uint64 n => Exec.pure { ID := HashToID h, ParentID := HashToID p, Height := n }
  | _, _, _ => Exec.fail

/-- The declaration `func (b Block) Header() flow.BlockHeader`. -/
def Block.HeaderDecl : Decl BlockHeader := ⟨.value, Block.HeaderBody⟩

/-- The operations of the type `Block`: its three declared methods. -/
inductive Operation where
  | ID
  | Encode
  | Header
deriving DecidableEq

/-- What an operation hands back (`none` for a panic or for no result). -/
inductive Outcome where
  | identifier (v : Option Identifier)
  | bytes (v : Option (List Byte))
  | header (v : Option BlockHeader)
deriving DecidableEq

/-- The call `b.op()` by a caller that holds the variable `v` in the memory `m`:
the outcome, the variable after the call and the memory after it. -/
def BlockVar.call (op : Operation) (v : BlockVar) (m : Heap) : Outcome × BlockVar × Heap :=
  match op with
  | .ID => (.identifier (Block.IDDecl.callOn v m).1, (Block.IDDecl.callOn v m).2)
  | .Encode => (.bytes (Block.EncodeDecl.callOn v m).1, (Block.EncodeDecl.callOn v m).2)
  | .Header => (.header (Block.HeaderDecl.callOn v m).1, (Block.HeaderDecl.callOn v m).2)

/-- A sequence of calls on one variable: the outcomes in order, and the variable
and the memory after the last call. -/
def BlockVar.run : List Operation → BlockVar → Heap → List Outcome × BlockVar × Heap
  | [], v, m => ([], v, m)
  | op :: ops, v, m =>
    ((BlockVar.call op v m).1 ::
        (BlockVar.run ops (BlockVar.call op v m).2.1 (BlockVar.call op v m).2.2).1,
      (BlockVar.run ops (BlockVar.call op v m).2.1 (BlockVar.call op v m).2.2).2)

/-- The operation a method of the step model stands for. -/
def Method.operation : Method → Operation
  | .ID => .ID
  | .Encode => .Encode

/-- The outcome a result of the step model stands for. -/
def Result.outcome : Result → Outcome
  | .identifier v => .identifier v
  | .bytes v => .bytes v

/-! ### Auxiliary definitions for the proofs -/

/-- Big-endian value of a run of bytes. -/
def beValue (bs : List Byte) : Nat :=
  bs.foldl (fun acc b => acc * 256 + b.val) 0

/-- The payload of the list of transaction identifiers. -/
def txPayload (txs : List Identifier) : List Byte :=
  (txs.map fun t => toByte 0xA0 :: t.bytes).flatten

/-- The bytes `DefaultEncoder` writes for a block: a list of the height, the parent
identifier and the list of transaction identifiers. -/
def Block.rlp (b : Block) : List Byte :=
  let txs := txPayload b.TransactionIDs
  let payload := writeUint b.Height.val ++
    ((toByte 0xA0 :: b.ParentID.bytes) ++ (puthead 0xC0 0xF7 txs.length ++ txs))
  puthead 0xC0 0xF7 payload.length ++ payload

/-! ## Facts about the encoder -/

theorem beValue_append_singleton (bs : List Byte) (x : Byte) :
    beValue (bs ++ [x]) = beValue bs * 256 + x.val := by
  simp [beValue, List.foldl_append]

theorem toByte_val (n : Nat) : (toByte n).val = n % 256 := rfl

theorem beValue_putintAux (fuel i : Nat) (h : i < fuel) :
    beValue (putintAux fuel i) = i := by
  induction fuel generalizing i with
  | zero => omega
  | succ f ih =>
    unfold putintAux
    split
    · simp [beValue, toByte_val]; omega
    · rw [beValue_append_singleton, ih (i / 256) (by omega), toByte_val]
      omega

theorem beValue_putint (i : Nat) : beValue (putint i) = i :=
  beValue_putintAux (i + 1) i (by omega)

theorem putint_injective {i j : Nat} (h : putint i = putint j) : i = j := by
  have := congrArg beValue h
  simpa [beValue_putint] using this

theorem putintAux_length_pos (fuel i : Nat) : 0 < (putintAux (fuel + 1) i).length := by
  unfold putintAux
  split <;> simp

theorem putintAux_length_mono (f : Nat) :
    ∀ (g i j : Nat), i ≤ j → i < f → j < g →
      (putintAux f i).length ≤ (putintAux g j).length := by
  induction f with
  | zero => intro g i j _ hi _; omega
  | succ f ih =>
    intro g i j hij hi hj
    cases g with
    | zero => omega
    | succ g =>
      by_cases h1 : i < 256
      · have hpos := putintAux_length_pos g j
        have hi1 : putintAux (f + 1) i = [toByte i] := by simp [putintAux, h1]
        rw [hi1]
        simpa using hpos
      · have h2 : ¬ j < 256 := by omega
        have hrec := ih g (i / 256) (j / 256) (Nat.div_le_div_right hij) (by omega) (by omega)
        have hi1 : putintAux (f + 1) i = putintAux f (i / 256) ++ [toByte i] := by
          simp [putintAux, h1]
        have hj1 : putintAux (g + 1) j = putintAux g (j / 256) ++ [toByte j] := by
          simp [putintAux, h2]
        rw [hi1, hj1]
        simpa using hrec

theorem putint_length_mono {i j : Nat} (h : i ≤ j) :
    (putint i).length ≤ (putint j).length :=
  putintAux_length_mono (i + 1) (j + 1) i j h (by omega) (by omega)

theorem putintAux_length_le (fuel : Nat) :
    ∀ (k i : Nat), i < fuel → i < 256 ^ k → 0 < k → (putintAux fuel i).length ≤ k := by
  induction fuel with
  | zero => intro k i h; omega
  | succ f ih =>
    intro k i hi hk hpos
    by_cases h1 : i < 256
    · simp [putintAux, h1]; omega
    · cases k with
      | zero => omega
      | succ k =>
        have hk2 : i / 256 < 256 ^ k := by
          rw [Nat.div_lt_iff_lt_mul (by decide)]
          simpa [pow_succ] using hk
        have hkpos : 0 < k := by
          rcases Nat.eq_zero_or_pos k with h0 | h0
          · subst h0; simp at hk2; omega
          · exact h0
        have := ih k (i / 256) (by omega) hk2 hkpos
        simp [putintAux, h1]; omega

theorem putint_length_le_eight {i : Nat} (h : i < 18446744073709551616) :
    (putint i).length ≤ 8 :=
  putintAux_length_le (i + 1) 8 i (by omega) (by norm_num; omega) (by decide)

theorem putint_length_pos (i : Nat) : 0 < (putint i).length :=
  putintAux_length_pos i i

/-- The length of a header grows with the size it announces. -/
theorem puthead_length_mono (s l : Nat) {m n : Nat} (h : m ≤ n) :
    (puthead s l m).length ≤ (puthead s l n).length := by
  unfold puthead
  have := putint_length_mono h
  split <;> split <;> simp <;> omega

/-- A header followed by a payload of the announced size determines the payload. -/
theorem puthead_append_inj (s l : Nat) {p q : List Byte}
    (h : puthead s l p.length ++ p = puthead s l q.length ++ q) : p = q := by
  have hlen := congrArg List.length h
  simp only [List.length_append] at hlen
  have hpq : p.length = q.length := by
    rcases Nat.lt_trichotomy p.length q.length with hlt | heq | hgt
    · have := puthead_length_mono s l (Nat.le_of_lt hlt); omega
    · exact heq
    · have := puthead_length_mono s l (Nat.le_of_lt hgt); omega
  rw [hpq] at h
  exact List.append_cancel_left h

/-- The three shapes of an encoded `uint64`, by its first byte. -/
theorem writeUint_shape {i : Nat} (hi : i < 18446744073709551616) :
    ∃ (first : Nat) (rest : List Byte), writeUint i = toByte first :: rest ∧ first < 256 ∧
      ((i = 0 ∧ first = 128 ∧ rest = []) ∨
       (0 < i ∧ i < 128 ∧ first = i ∧ rest = []) ∨
       (128 ≤ i ∧ first = 128 + rest.length ∧ rest = putint i)) := by
  have hl := putint_length_le_eight hi
  unfold writeUint
  by_cases i0 : i = 0
  · exact ⟨128, [], by simp [i0], by omega, Or.inl ⟨i0, rfl, rfl⟩⟩
  · by_cases i1 : i < 128
    · exact ⟨i, [], by simp [i0, i1], by omega, Or.inr (Or.inl ⟨by omega, i1, rfl, rfl⟩)⟩
    · exact ⟨128 + (putint i).length, putint i, by simp [i0, i1], by omega,
        Or.inr (Or.inr ⟨by omega, rfl, rfl⟩)⟩

/-- The encoding of a `uint64` can be split off the front of a byte sequence in
one way only. -/
theorem writeUint_append_inj {i j : Nat} {r t : List Byte}
    (hi : i < 18446744073709551616) (hj : j < 18446744073709551616)
    (h : writeUint i ++ r = writeUint j ++ t) : i = j ∧ r = t := by
  obtain ⟨fi, ri, hwi, hfi, hci⟩ := writeUint_shape hi
  obtain ⟨fj, rj, hwj, hfj, hcj⟩ := writeUint_shape hj
  have hpi := putint_length_pos i
  have hpj := putint_length_pos j
  rw [hwi, hwj] at h
  simp only [List.cons_append, List.cons.injEq] at h
  obtain ⟨hb, hrest⟩ := h
  have hv : fi = fj := by
    have := congrArg Fin.val hb
    simp only [toByte_val] at this
    omega
  rcases hci with ⟨ia, ib, ic⟩ | ⟨ia, ib, ic, id⟩ | ⟨ia, ib, ic⟩ <;>
    rcases hcj with ⟨ja, jb, jc⟩ | ⟨ja, jb, jc, jd⟩ | ⟨ja, jb, jc⟩
  · subst ic jc; exact ⟨by omega, by simpa using hrest⟩
  · omega
  · subst jc; omega
  · omega
  · subst id jd; exact ⟨by omega, by simpa using hrest⟩
  · subst jc; omega
  · subst ic; omega
  · subst ic; omega
  · subst ic jc
    obtain ⟨h1, h2⟩ := List.append_inj hrest (by omega)
    exact ⟨putint_injective h1, h2⟩

/-- A 32-byte array is written as the tag `0xA0` and its bytes. -/
theorem encodeString_identifier (t : Identifier) :
    encodeString t.bytes = toByte 0xA0 :: t.bytes := by
  obtain ⟨bs, hs⟩ := t
  match bs, hs with
  | [], hs => simp at hs
  | [x], hs => simp at hs
  | x :: y :: rest, hs =>
    have hlen : (x :: y :: rest).length < 56 := by omega
    simp only [encodeString, puthead, hlen, if_true, hs]
    rfl

theorem txPayload_length (txs : List Identifier) : (txPayload txs).length = 33 * txs.length := by
  induction txs with
  | nil => rfl
  | cons t ts ih =>
    simp only [txPayload, List.map_cons, List.flatten_cons, List.length_append,
      List.length_cons, t.size] at ih ⊢
    omega

theorem txPayload_injective {a b : List Identifier} (h : txPayload a = txPayload b) : a = b := by
  induction a generalizing b with
  | nil =>
    cases b with
    | nil => rfl
    | cons t ts =>
      have := congrArg List.length h
      simp [txPayload_length] at this
  | cons s ss ih =>
    cases b with
    | nil =>
      have := congrArg List.length h
      simp [txPayload_length] at this
    | cons t ts =>
      simp only [txPayload, List.map_cons, List.flatten_cons, List.cons_append,
        List.cons.injEq, true_and] at h
      obtain ⟨h1, h2⟩ := List.append_inj h (by rw [s.size, t.size])
      have hst : s = t := by
        cases s; cases t; simp only [Identifier.mk.injEq]; exact h1
      rw [hst, ih h2]

theorem encodeItems_identifiers (txs : List Identifier) :
    Value.encodeItems (txs.map fun t => Value.bytes t.bytes) = .ok (txPayload txs) := by
  induction txs with
  | nil => rfl
  | cons t ts ih =>
    simp only [List.map_cons, Value.encodeItems, Value.encode, ih, encodeString_identifier]
    rfl

theorem Block.temp_encode (b : Block) : b.temp.encode = .ok b.rlp := by
  simp only [Block.temp, Value.encode, Value.encodeItems, encodeItems_identifiers,
    encodeString_identifier, Block.rlp, List.append_nil]

theorem Block.Encode_eq (b : Block) : b.Encode = some b.rlp := by
  simp only [Block.Encode, MustEncode, Block.temp_encode]

theorem Block.rlp_injective {a b : Block} (h : a.rlp = b.rlp) : a = b := by
  have h1 := puthead_append_inj 0xC0 0xF7 h
  obtain ⟨hh, h2⟩ := writeUint_append_inj a.Height.isLt b.Height.isLt h1
  simp only [List.cons_append, List.cons.injEq, true_and] at h2
  obtain ⟨hp, h3⟩ := List.append_inj h2 (by rw [a.ParentID.size, b.ParentID.size])
  have ht := txPayload_injective (puthead_append_inj 0xC0 0xF7 h3)
  obtain ⟨ah, ap, at_⟩ := a
  obtain ⟨bh, bp, bt⟩ := b
  obtain ⟨apb, aps⟩ := ap
  obtain ⟨bpb, bps⟩ := bp
  simp only [Block.mk.injEq, Identifier.mk.injEq]
  exact ⟨Fin.ext hh, hp, ht⟩

/-! ## Facts about the hash and the identifier -/

theorem iota_length (rc : Nat) (A : List Nat) : (iota rc A).length = A.length := by
  cases A <;> rfl

theorem round_length (rc : Nat) (A : List Nat) :
    (iota rc (chi (rhoPi (theta A)))).length = 25 := by
  simp [iota_length, chi]

theorem foldl_round_length (rcs : List Nat) (A : List Nat) (h : A.length = 25) :
    (rcs.foldl (fun st rc => iota rc (chi (rhoPi (theta st)))) A).length = 25 := by
  induction rcs generalizing A with
  | nil => exact h
  | cons rc rcs ih => exact ih _ (round_length rc A)

theorem keccakF_length (A : List Nat) (h : A.length = 25) : (keccakF A).length = 25 :=
  foldl_round_length roundConstants A h

theorem xorBlock_length (A : List Nat) (block : List Byte) : (xorBlock A block).length = 25 := by
  simp [xorBlock]

theorem absorb_length (n : Nat) (A : List Nat) (msg : List Byte) (h : A.length = 25) :
    (absorb n A msg).length = 25 := by
  induction n generalizing A msg with
  | zero => exact h
  | succ n ih => exact ih _ _ (keccakF_length _ (xorBlock_length _ _))

theorem flatten_laneBytes_length (ws : List Nat) :
    ((ws.map laneBytes).flatten).length = 8 * ws.length := by
  induction ws with
  | nil => rfl
  | cons w ws ih =>
    simp only [List.map_cons, List.flatten_cons, List.length_append, ih, List.length_cons]
    simp [laneBytes]; omega

/-- A SHA3-256 digest has 32 bytes, whatever the input. -/
theorem ComputeHash_length (data : List Byte) : (ComputeHash data).length = 32 := by
  unfold ComputeHash
  simp only [flatten_laneBytes_length, List.length_take]
  rw [absorb_length _ _ _ (by simp)]
  rfl

/-- On a digest of 32 bytes `HashToID` keeps every byte. -/
theorem HashToID_bytes {hash : List Byte} (h : hash.length = 32) :
    (HashToID hash).bytes = hash := by
  simp [HashToID, h, List.take_of_length_le]

theorem HashToID_ComputeHash_inj {x y : List Byte}
    (h : HashToID (ComputeHash x) = HashToID (ComputeHash y)) :
    ComputeHash x = ComputeHash y := by
  have := congrArg Identifier.bytes h
  rwa [HashToID_bytes (ComputeHash_length x), HashToID_bytes (ComputeHash_length y)] at this

theorem Block.ID_eq (b : Block) : b.ID = some (HashToID (ComputeHash b.rlp)) := by
  simp only [Block.ID, Block.Encode_eq]

/-- There are finitely many identifiers. -/
theorem Identifier.finite : Finite Identifier := by
  have hfin : Finite {l : List Byte // l.length = 32} :=
    (List.finite_length_eq Byte 32).to_subtype
  exact Finite.of_injective (fun i : Identifier => (⟨i.bytes, i.size⟩ : {l : List Byte // l.length = 32}))
    (by
      intro a b hab
      cases a; cases b
      simpa using hab)

/-- Two different identifiers. -/
theorem ZeroID_ne_one : ZeroID ≠ HashToID [1] := by decide

/-- Some two sequences of two transaction identifiers each give one block identifier. -/
theorem exists_pair_collision (h : Uint64) (p : Identifier) :
    ∃ s t : Identifier × Identifier, s ≠ t ∧
      (Block.mk h p [s.1, s.2]).ID = (Block.mk h p [t.1, t.2]).ID := by
  haveI : Finite Identifier := Identifier.finite
  haveI : Fintype Identifier := Fintype.ofFinite Identifier
  by_contra hne
  push_neg at hne
  have hinj : Function.Injective
      (fun s : Identifier × Identifier => (Block.mk h p [s.1, s.2]).ID) := by
    intro s t hst
    by_contra hs
    exact hne s t hs hst
  have hcard := Finite.card_le_of_injective _ hinj
  rw [Nat.card_prod, Finite.card_option] at hcard
  have h2 : 1 < Nat.card Identifier := by
    rw [Finite.one_lt_card_iff_nontrivial]
    exact ⟨⟨ZeroID, HashToID [1], ZeroID_ne_one⟩⟩
  nlinarith

set_option maxRecDepth 100000 in
/-- The digest of the empty input is the SHA3-256 test vector `a7ffc6f8...f8434a`. -/
theorem ComputeHash_nil :
    (ComputeHash []).map Fin.val =
      [0xa7, 0xff, 0xc6, 0xf8, 0xbf, 0x1e, 0xd7, 0x66, 0x51, 0xc1, 0x47, 0x56, 0xa0, 0x61,
       0xd6, 0x62, 0xf5, 0x80, 0xff, 0x4d, 0xe4, 0x3b, 0x49, 0xfa, 0x82, 0xd8, 0x0a, 0x4b,
       0x80, 0xf8, 0x43, 0x4a] := by
  decide

/-- The encoding of the genesis block, byte for byte. -/
theorem GenesisBlock_Encode_bytes :
    GenesisBlock.Encode.map (fun e => e.map Fin.val) =
      some ([0xe3, 0x80, 0xa0] ++ List.replicate 32 0 ++ [0xc0]) := by
  decide

/-! ## Calls in sequence -/

theorem Block.call_snd (m : Method) (b : Block) : (Block.call m b).2 = b := by
  cases m <;> rfl

theorem Block.run_eq (ms : List Method) (b : Block) :
    Block.run ms b = (ms.map fun m => (Block.call m b).1, b) := by
  induction ms with
  | nil => rfl
  | cons m ms ih => simp only [Block.run, Block.call_snd, ih, List.map_cons]

/-! ## The properties of the block-identity model -/

/-- C1: `Block.ID` is deterministic.  Two blocks whose Height, ParentID and
TransactionIDs are equal have the same identifier, and any number of calls of
`ID` in a row on one block variable all return that same identifier. -/
theorem Block.ID_deterministic (b1 b2 : Block)
    (hH : b1.Height = b2.Height) (hP : b1.ParentID = b2.ParentID)
    (hT : b1.TransactionIDs = b2.TransactionIDs) :
    b1.ID = b2.ID ∧
    ∀ n : Nat, (Block.run (List.replicate n Method.ID) b1).1 =
      List.replicate n (Result.identifier b1.ID) := by
  constructor
  · cases b1; cases b2
    simp only at hH hP hT
    subst hH hP hT
    rfl
  · intro n
    rw [Block.run_eq]
    simp [Block.call]

/-- Witness for C1 at the genesis block and a block written out field by field. -/
theorem Block.ID_deterministic_witness :
    GenesisBlock.ID = (Block.mk 0 ZeroID []).ID ∧
    ∀ n : Nat, (Block.run (List.replicate n Method.ID) GenesisBlock).1 =
      List.replicate n (Result.identifier GenesisBlock.ID) :=
  Block.ID_deterministic GenesisBlock (Block.mk 0 ZeroID []) rfl rfl rfl

/-- C2: the identifier of a block is `HashToID` of the SHA3-256 digest of
`Encode`; `Encode` is `MustEncode` of the block's own three fields, in order; and
`HashToID` keeps all 32 bytes of a digest. -/
theorem Block.ID_is_hash_of_encoding (b : Block) :
    b.Encode = MustEncode (Value.list [Value.uint b.Height.val, Value.bytes b.ParentID.bytes,
      Value.list (b.TransactionIDs.map fun t => Value.bytes t.bytes)]) ∧
    (∃ enc, b.Encode = some enc ∧ b.ID = some (HashToID (ComputeHash enc))) ∧
    (∀ data : List Byte, (ComputeHash data).length = 32 ∧
      (HashToID (ComputeHash data)).bytes = ComputeHash data) :=
  ⟨rfl, ⟨b.rlp, Block.Encode_eq b, Block.ID_eq b⟩,
    fun data => ⟨ComputeHash_length data, HashToID_bytes (ComputeHash_length data)⟩⟩

set_option maxRecDepth 100000 in
/-- The identifier of the genesis block, computed. -/
theorem GenesisBlock_ID_bytes :
    GenesisBlock.ID.map (fun i => i.bytes.map Fin.val) = some
      [0x3c, 0x3e, 0xdb, 0xfa, 0x38, 0xba, 0xbb, 0xab, 0x7c, 0xe9, 0x14, 0x02, 0x37, 0xca,
       0x28, 0xc9, 0x35, 0xfd, 0xc3, 0xa7, 0xcb, 0xc7, 0x75, 0x65, 0xb7, 0x22, 0xe0, 0x58,
       0x18, 0xa3, 0x4a, 0x9f] := by
  decide

/-- C3: `GenesisBlock` has Height 0, the all-zero ParentID `ZeroID` and no
transaction identifiers; any two results of calling it agree in every field and
in their identifier. -/
theorem GenesisBlock_fields :
    GenesisBlock.Height = 0 ∧ GenesisBlock.ParentID = ZeroID ∧
    ZeroID.bytes = List.replicate 32 0 ∧ GenesisBlock.TransactionIDs = [] ∧
    ∀ g1 g2 : Block, g1 = GenesisBlock → g2 = GenesisBlock →
      g1.Height = g2.Height ∧ g1.ParentID = g2.ParentID ∧
      g1.TransactionIDs = g2.TransactionIDs ∧ g1.ID = g2.ID ∧ (∃ id, g1.ID = some id) := by
  refine ⟨rfl, rfl, rfl, rfl, ?_⟩
  intro g1 g2 h1 h2
  subst h1 h2
  exact ⟨rfl, rfl, rfl, rfl, _, Block.ID_eq _⟩

/-- C4: `Block.Encode` is injective on the triple.  Both blocks are encoded, and
the two byte sequences are equal exactly when Height, ParentID and
TransactionIDs (length, elements and order) are equal. -/
theorem Block.Encode_injective (b1 b2 : Block) :
    ∃ e1 e2, b1.Encode = some e1 ∧ b2.Encode = some e2 ∧
      (e1 = e2 ↔ (b1.Height = b2.Height ∧ b1.ParentID = b2.ParentID ∧
        b1.TransactionIDs = b2.TransactionIDs)) := by
  refine ⟨b1.rlp, b2.rlp, Block.Encode_eq b1, Block.Encode_eq b2, ?_, ?_⟩
  · intro h
    have := Block.rlp_injective h
    subst this
    exact ⟨rfl, rfl, rfl⟩
  · rintro ⟨hH, hP, hT⟩
    cases b1; cases b2
    simp only at hH hP hT
    subst hH hP hT
    rfl

/-- Two blocks have one identifier exactly when SHA3-256 gives their encodings
one digest. -/
theorem Block.ID_eq_iff_digest_eq (a b : Block) :
    a.ID = b.ID ↔ ComputeHash a.rlp = ComputeHash b.rlp := by
  rw [Block.ID_eq, Block.ID_eq]
  constructor
  · intro h
    exact HashToID_ComputeHash_inj (Option.some.inj h)
  · intro h
    rw [h]

/-- C6: `Block.Encode` and `Block.ID` have no error path.  For every block the
encoder returns bytes, so that `MustEncode` does not panic, `Encode` returns
those bytes and `ID` returns an identifier. -/
theorem Block.Encode_ID_total (b : Block) :
    (∃ bytes, b.temp.encode = Except.ok bytes ∧ MustEncode b.temp = some bytes ∧
      b.Encode = some bytes) ∧
    (∃ id, b.ID = some id) :=
  ⟨⟨b.rlp, Block.temp_encode b, Block.Encode_eq b, Block.Encode_eq b⟩, _, Block.ID_eq b⟩

set_option maxRecDepth 100000 in
/-- C7, as stated, fails at the block of height 0 with parent `ZeroID` and the one
transaction identifier `ZeroID`: it is not the genesis block and has another
identifier. -/
theorem genesis_not_unique :
    (Block.mk 0 ZeroID [ZeroID]).Height = 0 ∧
    (Block.mk 0 ZeroID [ZeroID]).ParentID = ZeroID ∧
    (Block.mk 0 ZeroID [ZeroID]).TransactionIDs ≠ GenesisBlock.TransactionIDs ∧
    Block.mk 0 ZeroID [ZeroID] ≠ GenesisBlock ∧
    (Block.mk 0 ZeroID [ZeroID]).ID ≠ GenesisBlock.ID := by
  decide

/-- C7, amended: a block of height 0 with parent `ZeroID` is the genesis block
exactly when it has no transaction identifiers, and then it has the identifier
of the genesis block. -/
theorem genesis_unique_among_empty (b : Block) (hH : b.Height = 0) (hP : b.ParentID = ZeroID) :
    (b.TransactionIDs = [] ↔ b = GenesisBlock) ∧
    (b.TransactionIDs = [] → b.ID = GenesisBlock.ID) := by
  have h1 : b.TransactionIDs = [] → b = GenesisBlock := by
    intro hT
    cases b
    simp only at hH hP hT
    subst hH hP hT
    rfl
  refine ⟨⟨h1, ?_⟩, ?_⟩
  · intro h
    rw [h]
    rfl
  · intro hT
    rw [h1 hT]

/-- Witness for the amended C7 at the block written out with no transactions. -/
theorem genesis_unique_among_empty_witness :
    ((Block.mk 0 ZeroID []).TransactionIDs = [] ↔ Block.mk 0 ZeroID [] = GenesisBlock) ∧
    ((Block.mk 0 ZeroID []).TransactionIDs = [] →
      (Block.mk 0 ZeroID []).ID = GenesisBlock.ID) :=
  genesis_unique_among_empty (Block.mk 0 ZeroID []) rfl rfl

/-- C8: the chain-linkage check.  The block of height 1 built on the identifier of
the genesis block passes the check against the genesis block, and a block built
on any other identifier fails it; for every parent, a block passes the check
against it exactly when its ParentID is the parent's identifier. -/
theorem chain_linkage_check :
    (∃ gid, GenesisBlock.ID = some gid ∧
      some (Block.mk 1 gid []).ParentID = GenesisBlock.ID ∧
      ∀ p : Identifier, p ≠ gid → some (Block.mk 1 p []).ParentID ≠ GenesisBlock.ID) ∧
    (∀ parent : Block, ∃ pid, parent.ID = some pid ∧
      some (Block.mk 1 pid []).ParentID = parent.ID ∧
      ∀ (h : Uint64) (p : Identifier) (txs : List Identifier),
        (some (Block.mk h p txs).ParentID = parent.ID ↔ p = pid)) := by
  constructor
  · refine ⟨_, Block.ID_eq GenesisBlock, ?_, ?_⟩
    · rw [Block.ID_eq]
    · intro p hp
      rw [Block.ID_eq]
      intro h
      exact hp (Option.some.inj h)
  · intro parent
    refine ⟨_, Block.ID_eq parent, ?_, ?_⟩
    · rw [Block.ID_eq]
    · intro h p txs
      rw [Block.ID_eq]
      exact ⟨fun h => Option.some.inj h, fun h => by rw [h]⟩

/-! ## Method bodies and the memory -/

/-- The body of `Encode` returns the encoding of the block the receiver holds and
leaves the frame as it was. -/
theorem Block.EncodeBody_run (f : Frame) :
    Block.EncodeBody f = ((f.receiver.value f.heap).Encode, f) := rfl

theorem Block.EncodeDecl_callOn (v : BlockVar) (m : Heap) :
    Block.EncodeDecl.callOn v m = ((v.value m).Encode, v, m) := rfl

/-- The body of `ID` returns the identifier of the block the receiver holds and
leaves the frame as it was. -/
theorem Block.IDBody_run (f : Frame) :
    Block.IDBody f = ((f.receiver.value f.heap).ID, f) := by
  simp only [Block.IDBody, Exec.bind, Exec.invoke, Block.EncodeDecl_callOn, Block.ID]
  cases (f.receiver.value f.heap).Encode <;> rfl

theorem Block.IDDecl_callOn (v : BlockVar) (m : Heap) :
    Block.IDDecl.callOn v m = ((v.value m).ID, v, m) := by
  simp only [Decl.callOn, Block.IDDecl, Block.IDBody_run]

/-- The body of `Header` stops at its first selector and leaves the frame as it was. -/
theorem Block.HeaderBody_run (f : Frame) :
    Block.HeaderBody f = ((f.receiver.value f.heap).Header, f) := by
  have h1 : Exec.method "Hash" = Exec.fail := by
    simp [Exec.method]
  have h2 : (f.receiver.value f.heap).method "Hash" = none := by
    simp [Block.method]
  simp only [Block.HeaderBody, h1, Exec.bind, Exec.fail, Block.Header, h2]

theorem Block.HeaderDecl_callOn (v : BlockVar) (m : Heap) :
    Block.HeaderDecl.callOn v m = ((v.value m).Header, v, m) := by
  simp only [Decl.callOn, Block.HeaderDecl, Block.HeaderBody_run]

theorem BlockVar.call_state (op : Operation) (v : BlockVar) (m : Heap) :
    (BlockVar.call op v m).2 = (v, m) := by
  cases op
  · simp only [BlockVar.call, Block.IDDecl_callOn]
  · simp only [BlockVar.call, Block.EncodeDecl_callOn]
  · simp only [BlockVar.call, Block.HeaderDecl_callOn]

theorem BlockVar.run_state (ops : List Operation) (v : BlockVar) (m : Heap) :
    (BlockVar.run ops v m).2 = (v, m) := by
  induction ops with
  | nil => rfl
  | cons op ops ih =>
    simp only [BlockVar.run, BlockVar.call_state, ih]

/-- The frame property is not built into a call: a body that assigns to an
element of the slice changes the block the caller holds, also through a value
receiver. -/
theorem store_changes_caller :
    ((Decl.mk Receiver.value (Exec.store ⟨0, 1⟩ 0 (HashToID [1]))).callOn
        ⟨0, ZeroID, ⟨0, 1⟩⟩ [[ZeroID]]).2.2 ≠ [[ZeroID]] ∧
    (BlockVar.value ⟨0, ZeroID, ⟨0, 1⟩⟩
        ((Decl.mk Receiver.value (Exec.store ⟨0, 1⟩ 0 (HashToID [1]))).callOn
          ⟨0, ZeroID, ⟨0, 1⟩⟩ [[ZeroID]]).2.2).TransactionIDs ≠
      (BlockVar.value ⟨0, ZeroID, ⟨0, 1⟩⟩ [[ZeroID]]).TransactionIDs := by
  decide

/-- A body that assigns to a field changes the variable of the caller when the
receiver is a pointer, and a copy only when it is a value. -/
theorem setHeight_changes_caller :
    ((Decl.mk Receiver.pointer (Exec.setHeight 7)).callOn ⟨0, ZeroID, ⟨0, 0⟩⟩ []).2.1.Height = 7 ∧
    ((Decl.mk Receiver.value (Exec.setHeight 7)).callOn ⟨0, ZeroID, ⟨0, 0⟩⟩ []).2.1.Height = 0 := by
  decide

/-- The calls of `ID` and `Encode` as steps on a block are what the calls on a
variable that holds the block do. -/
theorem Block.call_refines (mth : Method) (v : BlockVar) (m : Heap) :
    BlockVar.call mth.operation v m = ((Block.call mth (v.value m)).1.outcome, v, m) ∧
    (Block.call mth (v.value m)).2 = v.value m := by
  cases mth
  · exact ⟨by simp only [Method.operation, BlockVar.call, Block.IDDecl_callOn, Block.call,
      Result.outcome], rfl⟩
  · exact ⟨by simp only [Method.operation, BlockVar.call, Block.EncodeDecl_callOn, Block.call,
      Result.outcome], rfl⟩

/-- C9: a block is immutable under its own operations.  A call of `ID`, `Encode`
or `Header` on a variable that holds a block, and any sequence of such calls,
runs the body of the method on the memory of the program and leaves the variable
of the caller and the memory as they were, so the block has the Height, ParentID
and TransactionIDs (length, elements and order) it had before; `ID` and `Encode`
return what they return on that block. -/
theorem Block.operations_leave_block_unchanged (ops : List Operation) (v : BlockVar) (m : Heap) :
    (∀ op : Operation,
      (BlockVar.call op v m).2.1 = v ∧ (BlockVar.call op v m).2.2 = m ∧
      (BlockVar.call op v m).2.1.value (BlockVar.call op v m).2.2 = v.value m) ∧
    (BlockVar.call Operation.ID v m).1 = Outcome.identifier (v.value m).ID ∧
    (BlockVar.call Operation.Encode v m).1 = Outcome.bytes (v.value m).Encode ∧
    (BlockVar.run ops v m).2.1 = v ∧ (BlockVar.run ops v m).2.2 = m ∧
    ((BlockVar.run ops v m).2.1.value (BlockVar.run ops v m).2.2).Height = (v.value m).Height ∧
    ((BlockVar.run ops v m).2.1.value (BlockVar.run ops v m).2.2).ParentID =
      (v.value m).ParentID ∧
    ((BlockVar.run ops v m).2.1.value (BlockVar.run ops v m).2.2).TransactionIDs =
      (v.value m).TransactionIDs := by
  have hrun := BlockVar.run_state ops v m
  refine ⟨?_, ?_, ?_, ?_⟩
  · intro op
    have hcall := BlockVar.call_state op v m
    rw [hcall]
    exact ⟨rfl, rfl, rfl⟩
  · simp only [BlockVar.call, Block.IDDecl_callOn]
  · simp only [BlockVar.call, Block.EncodeDecl_callOn]
  · rw [hrun]
    exact ⟨rfl, rfl, rfl, rfl, rfl⟩

/-- C10, the defect: `Block.Header` selects `Hash`, `PreviousBlockHash` and
`Number`, none of which `Block` declares, so no header comes out of it for any
block; the declared members that hold the same data are `ID`, `ParentID` and
`Height`. -/
theorem Block.Header_selects_undeclared (b : Block) :
    b.method "Hash" = none ∧ b.field "PreviousBlockHash" = none ∧
    b.field "Number" = none ∧ b.Header = none ∧
    b.method "ID" = b.ID.map Member.identifier ∧
    b.field "ParentID" = some (Member.identifier b.ParentID) ∧
    b.field "Height" = some (Member.uint64 b.Height) := by
  refine ⟨?_, ?_, ?_, ?_, ?_, ?_, ?_⟩ <;> simp [Block.Header, Block.method, Block.field]

end FlowEmulator
